import Mathlib

/-!
Verification of the order-statistics AVL tree of `mailybutel/2085Ass3`
(`src/avl.py`, `src/node.py`), of the pseudo-random generator
(`src/random_gen.py`) and of the prime finder (`src/primes.py`).

The tree is embedded shallowly: a Python `AVLTreeNode` object graph is the
inductive type `AVLTreeNode V` (`nil` is Python's `None`), and each method of
`avl.py` becomes a pure function.  Keys are `Int` (Python ints compared with
`<`); the payload type `V` is opaque to every operation, exactly as in the
source.  The cached `height` and `num_nodes_subtree` fields of `node.py` are
carried in every `node` constructor.  Exceptions (`raise ValueError`) become
`Except String`; the mutable `self.length` counter of the base class is
threaded through `insert_aux` / `delete_aux` as an explicit `Int` argument,
mirroring the `self.length += 1` / `self.length -= 1` statements.
-/

/-- A Python `AVLTreeNode` reference (`node.py`): either `None` or a node with
`left`, `key`, `item`, `right`, and the cached `height` and
`num_nodes_subtree` fields. -/
inductive AVLTreeNode (V : Type) : Type where
  | nil : AVLTreeNode V
  | node (l : AVLTreeNode V) (key : Int) (item : V) (r : AVLTreeNode V)
      (height : Nat) (num : Nat) : AVLTreeNode V
deriving DecidableEq, Repr

/-- The `AVLTree` object (`avl.py` / spec §3 Tree): the `root` reference and
the live element counter `length` maintained by the base class. -/
structure AVLTree (V : Type) : Type where
  root : AVLTreeNode V
  length : Int
deriving DecidableEq, Repr

namespace AVLTree

variable {V : Type}

/-- `AVLTree.get_height` (src/avl.py:27-36): `current.height` if `current`
is not `None`, else `0`. -/
def get_height : AVLTreeNode V → Nat
  | .nil => 0
  | .node _ _ _ _ h _ => h

/-- `AVLTree.get_num_nodes_subtree` (src/avl.py:38-47). -/
def get_num_nodes_subtree : AVLTreeNode V → Nat
  | .nil => 0
  | .node _ _ _ _ _ c => c

/-- `AVLTree.get_balance` (src/avl.py:49-58):
`get_height(current.right) - get_height(current.left)`, `0` for `None`. -/
def get_balance : AVLTreeNode V → Int
  | .nil => 0
  | .node l _ _ r _ _ => (get_height r : Int) - (get_height l : Int)

/-- The pair of cache-update statements that `insert_aux`, `delete_aux`,
`left_rotate` and `right_rotate` all perform on a node after relinking its
children (src/avl.py:82-85, 127-130, 159-164, 193-198):
`current.height = 1 + max(get_height(left), get_height(right))` and
`current.num_nodes_subtree = 1 + get_num_nodes_subtree(left) +
get_num_nodes_subtree(right)`. -/
def mkNode (l : AVLTreeNode V) (k : Int) (v : V) (r : AVLTreeNode V) :
    AVLTreeNode V :=
  .node l k v r (1 + max (get_height l) (get_height r))
    (1 + get_num_nodes_subtree l + get_num_nodes_subtree r)

/-- `AVLTree.left_rotate` (src/avl.py:135-167).  The right child is promoted;
both touched nodes get their `height` and `num_nodes_subtree` recomputed
(`current` first, then `child`).  Python would raise `AttributeError` if
`current.right` were `None`; the fallback branch returns the argument and is
never reached from `rebalance`. -/
def left_rotate : AVLTreeNode V → AVLTreeNode V
  | .node l k v (.node cl ck cv cr _ _) _ _ => mkNode (mkNode l k v cl) ck cv cr
  | t => t

/-- `AVLTree.right_rotate` (src/avl.py:169-201), mirror image of
`left_rotate`. -/
def right_rotate : AVLTreeNode V → AVLTreeNode V
  | .node (.node cl ck cv cr _ _) k v r _ _ => mkNode cl ck cv (mkNode cr k v r)
  | t => t

/-- Child accessor used by `rebalance` when it inspects `child.left`
(src/avl.py:216,222). -/
def leftOf : AVLTreeNode V → AVLTreeNode V
  | .nil => .nil
  | .node l _ _ _ _ _ => l

/-- Child accessor used by `rebalance` when it inspects `child.right`. -/
def rightOf : AVLTreeNode V → AVLTreeNode V
  | .nil => .nil
  | .node _ _ _ r _ _ => r

/-- The assignment `current.right = ...` performed by `rebalance` before its
double rotation (src/avl.py:217); all other fields, the stale caches
included, are left as they are. -/
def setRight : AVLTreeNode V → AVLTreeNode V → AVLTreeNode V
  | .nil, _ => .nil
  | .node l k v _ h c, r2 => .node l k v r2 h c

/-- The assignment `current.left = ...` performed by `rebalance` before its
double rotation (src/avl.py:223). -/
def setLeft : AVLTreeNode V → AVLTreeNode V → AVLTreeNode V
  | .nil, _ => .nil
  | .node _ k v r h c, l2 => .node l2 k v r h c

/-- `AVLTree.rebalance` (src/avl.py:203-226): on balance `≥ 2`, if the right
child's left subtree is taller than its right subtree, first right-rotate
the right child (reassigning `current.right`), then left-rotate the node;
symmetrically on balance `≤ -2`; otherwise return the node unchanged.
(When a balance guard fires the inspected child is necessarily a real node,
so `leftOf`/`rightOf`/`setRight`/`setLeft` coincide with Python's direct
attribute accesses, which would raise on `None`.) -/
def rebalance (t : AVLTreeNode V) : AVLTreeNode V :=
  if 2 ≤ get_balance t then
    if get_height (leftOf (rightOf t)) > get_height (rightOf (rightOf t)) then
      left_rotate (setRight t (right_rotate (rightOf t)))
    else
      left_rotate t
  else if get_balance t ≤ -2 then
    if get_height (rightOf (leftOf t)) > get_height (leftOf (leftOf t)) then
      right_rotate (setLeft t (left_rotate (leftOf t)))
    else
      right_rotate t
  else t

/-- `AVLTree.insert_aux` (src/avl.py:60-88).  The extra `len` argument
threads the base class's mutable `self.length`; `Except.error` models the
`raise ValueError('Inserting duplicate item')`.  A new `AVLTreeNode` starts
with `height = 1`, `num_nodes_subtree = 1` (src/node.py:49-61), which is what
the fall-through cache update computes for it as well. -/
def insert_aux (t : AVLTreeNode V) (key : Int) (item : V) (len : Int) :
    Except String (AVLTreeNode V × Int) :=
  match t with
  | .nil => .ok (rebalance (mkNode .nil key item .nil), len + 1)
  | .node l k v r _ _ =>
    if key < k then
      match insert_aux l key item len with
      | .ok (l2, len2) => .ok (rebalance (mkNode l2 k v r), len2)
      | .error e => .error e
    else if k < key then
      match insert_aux r key item len with
      | .ok (r2, len2) => .ok (rebalance (mkNode l k v r2), len2)
      | .error e => .error e
    else
      .error "Inserting duplicate item"

/-- Modelled from the spec: `bst.py` (the `BinarySearchTree` base class) is
imported by `src/avl.py` but absent from `src/`.  Its `get_successor`, used
by `delete_aux` in the two-children case, is per spec §4.1 "the in-order
successor (leftmost node of the right subtree)"; this function returns the
key/item of the leftmost node of the subtree it is applied to. -/
def minKV : AVLTreeNode V → Option (Int × V)
  | .nil => none
  | .node .nil k v _ _ _ => some (k, v)
  | .node (.node a b c d e f) _ _ _ _ _ => minKV (.node a b c d e f)

/-- Modelled from the spec: the `current.left is None` / `current.right is
None` tests of `delete_aux` and the `is_leaf` helper of the missing
`bst.py` (spec §4.1: the "no children" / "one child" cases). -/
def isNil : AVLTreeNode V → Bool
  | .nil => true
  | .node _ _ _ _ _ _ => false

@[simp] theorem isNil_nil : isNil (.nil : AVLTreeNode V) = true := rfl

@[simp] theorem isNil_node (l : AVLTreeNode V) (k : Int) (v : V)
    (r : AVLTreeNode V) (h c : Nat) :
    isNil (.node l k v r h c) = false := rfl

/-- `AVLTree.delete_aux` (src/avl.py:91-133).  The found-key cases follow the
source's cascade: leaf (`is_leaf`, modelled from the spec as "no children"
since `bst.py` is absent), then `left is None`, then `right is None`, each
returning early without the cache update, and otherwise the successor's
key/item are copied into the node and the successor's key is deleted from the
right subtree.  `len` threads `self.length` as in `insert_aux`. -/
def delete_aux (t : AVLTreeNode V) (key : Int) (len : Int) :
    Except String (AVLTreeNode V × Int) :=
  match t with
  | .nil => .error "Deleting non-existent item"
  | .node l k v r _ _ =>
    if key < k then
      match delete_aux l key len with
      | .ok (l2, len2) => .ok (rebalance (mkNode l2 k v r), len2)
      | .error e => .error e
    else if k < key then
      match delete_aux r key len with
      | .ok (r2, len2) => .ok (rebalance (mkNode l k v r2), len2)
      | .error e => .error e
    else
      if isNil l && isNil r then .ok (.nil, len - 1)
      else if isNil l then .ok (r, len - 1)
      else if isNil r then .ok (l, len - 1)
      else
        match minKV r with
        | some (sk, sv) =>
          match delete_aux r sk len with
          | .ok (r2, len2) => .ok (rebalance (mkNode l sk sv r2), len2)
          | .error e => .error e
        | none => .error "unreachable"

/-- `AVLTree.kth_largest_aux` (src/avl.py:245-269).  On a `None` argument
Python would raise `AttributeError`; that (unreachable) outcome and the
implicit fall-through `return None` are both modelled as `none`. -/
def kth_largest_aux (k : Int) (t : AVLTreeNode V) : Option (Int × V) :=
  match t with
  | .nil => none
  | .node l key v r _ _ =>
    if k = (get_num_nodes_subtree r : Int) + 1 then some (key, v)
    else if k ≤ (get_num_nodes_subtree r : Int) then kth_largest_aux k r
    else if k > (get_num_nodes_subtree r : Int) + 1 then
      kth_largest_aux (k - (get_num_nodes_subtree r : Int) - 1) l
    else none

/-- `AVLTree.kth_largest` (src/avl.py:228-243): validates
`1 ≤ k ≤ get_num_nodes_subtree(root)` (raising `ValueError` otherwise) and
then runs `kth_largest_aux` on the root. -/
def kth_largest (s : AVLTree V) (k : Int) :
    Except String (Option (Int × V)) :=
  if k > (get_num_nodes_subtree s.root : Int) ∨ k < 1 then
    .error "k cannot be greater than the number of elements in the tree and must be greater than 1"
  else
    .ok (kth_largest_aux k s.root)

/-- Modelled from the spec: the `__setitem__`-style wrapper of the missing
`bst.py` base class.  Per spec §2/§4.1 a mutating operation recurses from the
root and replaces it with the returned subtree root, the actual work being
`insert_aux` of src/avl.py.  An uncaught `ValueError` from `insert_aux`
propagates, leaving the tree untouched (no assignment to `root` or to any
node occurs before the raise). -/
def insert (s : AVLTree V) (key : Int) (item : V) : Except String (AVLTree V) :=
  match insert_aux s.root key item s.length with
  | .ok (t, len) => .ok ⟨t, len⟩
  | .error e => .error e

/-- Modelled from the spec: the `__delitem__`-style wrapper of the missing
`bst.py` base class, delegating to `delete_aux` of src/avl.py (spec §2/§4.1),
with the same exception propagation as `insert`. -/
def delete (s : AVLTree V) (key : Int) : Except String (AVLTree V) :=
  match delete_aux s.root key s.length with
  | .ok (t, len) => .ok ⟨t, len⟩
  | .error e => .error e

/-- Modelled from the spec: spec §6 lists the key-indexed assignment
`set(key, value)`; in this repository `tree[key] = value` is the
`__setitem__` of the missing `bst.py`, which delegates to `insert_aux`
(src/avl.py) — `game.py:209-212` deletes an existing key before
re-assigning it, confirming that assignment does not update in place. -/
def set (s : AVLTree V) (key : Int) (item : V) : Except String (AVLTree V) :=
  insert s key item

/-- The empty tree (`AVLTree.__init__` / `BinarySearchTree.__init__`,
modelled from spec §3: created empty, `size = 0`). -/
def empty : AVLTree V := ⟨.nil, 0⟩

end AVLTree

/-- A mutating operation requested by a caller. -/
inductive Op (V : Type) : Type where
  | ins (key : Int) (item : V) : Op V
  | del (key : Int) : Op V

/-- One caller step: perform the operation; if it raises, the exception
propagates to the caller and the tree is left as it was (no assignment
happens before a raise in `insert_aux`/`delete_aux`). -/
def step {V : Type} (s : AVLTree V) : Op V → AVLTree V
  | .ins key item =>
    match AVLTree.insert s key item with
    | .ok s2 => s2
    | .error _ => s
  | .del key =>
    match AVLTree.delete s key with
    | .ok s2 => s2
    | .error _ => s

/-- Run a sequence of operations against an initially empty tree. -/
def run {V : Type} (ops : List (Op V)) : AVLTree V :=
  ops.foldl step AVLTree.empty

namespace AVLTree

variable {V : Type}

/-- In-order traversal: the ascending key/value sequence of spec §6
`in_order_iterate`. -/
def inorder : AVLTreeNode V → List (Int × V)
  | .nil => []
  | .node l k v r _ _ => inorder l ++ (k, v) :: inorder r

/-- The in-order key sequence. -/
def keys (t : AVLTreeNode V) : List Int := (inorder t).map Prod.fst

/-- Actual height of a subtree (leaf = 1, absent = 0), independent of the
cached `height` fields. -/
def ht : AVLTreeNode V → Nat
  | .nil => 0
  | .node l _ _ r _ _ => 1 + max (ht l) (ht r)

/-- Actual number of nodes of a subtree, independent of the cached
`num_nodes_subtree` fields. -/
def sz : AVLTreeNode V → Nat
  | .nil => 0
  | .node l _ _ r _ _ => 1 + sz l + sz r

/-- Every cached `height` field equals the actual height of its subtree
(spec §3 invariant 2). -/
def HtOk : AVLTreeNode V → Prop
  | .nil => True
  | .node l _ _ r h _ => HtOk l ∧ HtOk r ∧ h = 1 + max (ht l) (ht r)

/-- Every cached `num_nodes_subtree` field equals the actual subtree size
(spec §3 invariant 3). -/
def SzOk : AVLTreeNode V → Prop
  | .nil => True
  | .node l _ _ r _ c => SzOk l ∧ SzOk r ∧ c = 1 + sz l + sz r

/-- AVL balance at every node (spec §3 invariant 4). -/
def BalOk : AVLTreeNode V → Prop
  | .nil => True
  | .node l _ _ r _ _ => BalOk l ∧ BalOk r ∧ ht l ≤ ht r + 1 ∧ ht r ≤ ht l + 1

/-- Structural well-formedness of the caches and of the balance. -/
def Good (t : AVLTreeNode V) : Prop := HtOk t ∧ SzOk t ∧ BalOk t

/-- BST order (spec §3 invariants 1 and 5): the in-order key sequence is
strictly increasing. -/
def OrdOk (t : AVLTreeNode V) : Prop := (keys t).Pairwise (· < ·)

/-- The five per-node invariants of spec §3, stated node by node exactly as
the spec states them: BST order around each key, cache correctness of
`height` and `num_nodes_subtree` against the children's caches, and AVL
balance of the children's heights. -/
def AVLInv : AVLTreeNode V → Prop
  | .nil => True
  | .node l k _ r h c => AVLInv l ∧ AVLInv r ∧
      (∀ x ∈ keys l, x < k) ∧ (∀ x ∈ keys r, k < x) ∧
      h = 1 + max (get_height l) (get_height r) ∧
      c = 1 + get_num_nodes_subtree l + get_num_nodes_subtree r ∧
      get_height l ≤ get_height r + 1 ∧ get_height r ≤ get_height l + 1

/-- Full state invariant: the node graph is well formed and the live
`length` counter mirrors the actual element count (spec §3 Tree). -/
def StInv (s : AVLTree V) : Prop :=
  Good s.root ∧ OrdOk s.root ∧ s.length = (sz s.root : Int)

end AVLTree

/-- Insertion of a key/value pair into an ascending association list at its
sorted position (the spec's description of what `insert` does to the
in-order sequence). -/
def insertKV {V : Type} (key : Int) (v : V) : List (Int × V) → List (Int × V)
  | [] => [(key, v)]
  | (k2, v2) :: rest =>
    if key < k2 then (key, v) :: (k2, v2) :: rest
    else (k2, v2) :: insertKV key v rest

/-- Removal of the first entry with the given key from an association list
(the spec's description of what `delete` does to the in-order sequence). -/
def eraseKV {V : Type} (key : Int) : List (Int × V) → List (Int × V)
  | [] => []
  | (k2, v2) :: rest => if k2 = key then rest else (k2, v2) :: eraseKV key rest

/-! ### `src/random_gen.py` -/

namespace RandomGen

/-- One step of the linear congruential generator `lcg(2^32, 134775813, 1, seed)`
(src/random_gen.py:8-12,27): `seed = (a * seed + c) % modulus`; each `next()`
of the Python generator yields the new seed, which is also the state carried
to the following call. -/
def lcgStep (seed : Nat) : Nat := (134775813 * seed + 1) % 4294967296

/-- The bit-majority loop of `randint` (src/random_gen.py:44-62): `n` rounds;
each round takes the current lowest bit of each of the five numbers, emits
`1` when at least 3 of the 5 bits are set, right-shifts every number, and
prepends the emitted character to the result string — so the round-`i` bit
is bit `i` of the final `int(new_num, base=2)`. -/
def majLoop : Nat → List Nat → Nat
  | 0, _ => 0
  | n + 1, rands =>
    (if 3 ≤ rands.countP (fun x => x % 2 = 1) then 1 else 0)
      + 2 * majLoop n (rands.map (fun x => x / 2))

/-- `RandomGen.randint` (src/random_gen.py:29-65) as a state transformer on
the generator's seed: draw five LCG values, keep their upper 16 bits
(`rand >> 16` of a 32-bit value), combine them bitwise by majority over 16
rounds, and return `(new_num % k) + 1` together with the new generator
state. -/
def randint (seed : Nat) (k : Int) : Int × Nat :=
  let s1 := lcgStep seed
  let s2 := lcgStep s1
  let s3 := lcgStep s2
  let s4 := lcgStep s3
  let s5 := lcgStep s4
  let rands := [s1 / 65536, s2 / 65536, s3 / 65536, s4 / 65536, s5 / 65536]
  (((majLoop 16 rands : Nat) : Int) % k + 1, s5)

/-- The value sequence produced by one `RandomGen` instance across a run of
`randint` calls with the given upper bounds. -/
def randSeq (seed : Nat) : List Int → List Int
  | [] => []
  | k :: ks => (randint seed k).1 :: randSeq (randint seed k).2 ks

end RandomGen

/-! ### `src/primes.py` -/

namespace Primes

/-- The inner sieve loop `for j in range(i*i, k, i): is_prime[j] = False`
(src/primes.py:31-32): starting at `j`, clear every `i`-th slot below `k`.
The `fuel` argument (always called with `fuel = k`) bounds the recursion; as
`i ≥ 1` at every call site, `k` steps always suffice to reach `j ≥ k`, so
the bound is never the reason the loop stops. -/
def markLoop (k i : Nat) : Nat → Nat → List Bool → List Bool
  | _, 0, arr => arr
  | j, fuel + 1, arr =>
    if j < k then markLoop k i (j + i) fuel (arr.set j false) else arr

/-- `int(math.sqrt(k))`: the floor of the square root, i.e. the largest
`i ≤ k` with `i * i ≤ k`. -/
def isqrt (k : Nat) : Nat :=
  (List.range (k + 1)).foldl (fun acc i => if i * i ≤ k then i else acc) 0

/-- `largest_prime` (src/primes.py:8-37): raise for `k ≤ 2`; otherwise build
the table `is_prime` of size `k` with slots `0` and `1` cleared, run the
outer loop `for i in range(int(math.sqrt(k)))` clearing multiples of each
still-marked `i` from `i*i` on, and return the largest index still marked,
scanning downward (`None`, i.e. `Option.none`, if the scan falls through). -/
def largest_prime (k : Nat) : Except String (Option Nat) :=
  if k ≤ 2 then .error "Integer must be greater than 1"
  else
    let arr0 := ((List.replicate k true).set 0 false).set 1 false
    let arr := (List.range (isqrt k)).foldl
      (fun a i => if a.getD i false then markLoop k i (i * i) k a else a) arr0
    .ok ((List.range k).foldr
      (fun i acc => if acc.isSome then acc else if arr.getD i false then some i else acc)
      none)

end Primes

/-! ### Basic facts about the tree model -/

namespace AVLTree

variable {V : Type}

@[simp] theorem inorder_nil : inorder (.nil : AVLTreeNode V) = [] := rfl

@[simp] theorem inorder_node (l : AVLTreeNode V) (k : Int) (v : V)
    (r : AVLTreeNode V) (h c : Nat) :
    inorder (.node l k v r h c) = inorder l ++ (k, v) :: inorder r := rfl

@[simp] theorem inorder_mkNode (l : AVLTreeNode V) (k : Int) (v : V)
    (r : AVLTreeNode V) :
    inorder (mkNode l k v r) = inorder l ++ (k, v) :: inorder r := rfl

@[simp] theorem keys_nil : keys (.nil : AVLTreeNode V) = [] := rfl

theorem keys_node (l : AVLTreeNode V) (k : Int) (v : V)
    (r : AVLTreeNode V) (h c : Nat) :
    keys (.node l k v r h c) = keys l ++ k :: keys r := by
  simp [keys]

theorem keys_mkNode (l : AVLTreeNode V) (k : Int) (v : V) (r : AVLTreeNode V) :
    keys (mkNode l k v r) = keys l ++ k :: keys r := keys_node ..

@[simp] theorem ht_nil : ht (.nil : AVLTreeNode V) = 0 := rfl

@[simp] theorem ht_node (l : AVLTreeNode V) (k : Int) (v : V)
    (r : AVLTreeNode V) (h c : Nat) :
    ht (.node l k v r h c) = 1 + max (ht l) (ht r) := rfl

@[simp] theorem ht_mkNode (l : AVLTreeNode V) (k : Int) (v : V)
    (r : AVLTreeNode V) :
    ht (mkNode l k v r) = 1 + max (ht l) (ht r) := rfl

@[simp] theorem sz_nil : sz (.nil : AVLTreeNode V) = 0 := rfl

@[simp] theorem sz_node (l : AVLTreeNode V) (k : Int) (v : V)
    (r : AVLTreeNode V) (h c : Nat) :
    sz (.node l k v r h c) = 1 + sz l + sz r := rfl

@[simp] theorem sz_mkNode (l : AVLTreeNode V) (k : Int) (v : V)
    (r : AVLTreeNode V) :
    sz (mkNode l k v r) = 1 + sz l + sz r := rfl

theorem ht_pos_of_ne_nil {t : AVLTreeNode V} (h : t ≠ .nil) : 0 < ht t := by
  cases t with
  | nil => exact absurd rfl h
  | node l k v r hh c => simp [ht]

theorem ne_nil_of_ht_pos {t : AVLTreeNode V} (h : 0 < ht t) : t ≠ .nil := by
  intro he; subst he; simp at h

theorem inorder_length (t : AVLTreeNode V) : (inorder t).length = sz t := by
  induction t with
  | nil => rfl
  | node l k v r h c ihl ihr => simp [ihl, ihr]; omega

theorem inorder_ne_nil {t : AVLTreeNode V} (h : t ≠ .nil) : inorder t ≠ [] := by
  cases t with
  | nil => exact absurd rfl h
  | node l k v r hh c => simp

theorem get_height_eq {t : AVLTreeNode V} (h : HtOk t) : get_height t = ht t := by
  cases t with
  | nil => rfl
  | node l k v r hh c => exact h.2.2

theorem get_num_eq {t : AVLTreeNode V} (h : SzOk t) :
    get_num_nodes_subtree t = sz t := by
  cases t with
  | nil => rfl
  | node l k v r hh c => exact h.2.2

theorem htOk_node_iff (l : AVLTreeNode V) (k : Int) (v : V)
    (r : AVLTreeNode V) (h c : Nat) :
    HtOk (.node l k v r h c) ↔ HtOk l ∧ HtOk r ∧ h = 1 + max (ht l) (ht r) :=
  Iff.rfl

theorem szOk_node_iff (l : AVLTreeNode V) (k : Int) (v : V)
    (r : AVLTreeNode V) (h c : Nat) :
    SzOk (.node l k v r h c) ↔ SzOk l ∧ SzOk r ∧ c = 1 + sz l + sz r :=
  Iff.rfl

theorem balOk_node_iff (l : AVLTreeNode V) (k : Int) (v : V)
    (r : AVLTreeNode V) (h c : Nat) :
    BalOk (.node l k v r h c) ↔
      BalOk l ∧ BalOk r ∧ ht l ≤ ht r + 1 ∧ ht r ≤ ht l + 1 :=
  Iff.rfl

theorem good_nil : Good (.nil : AVLTreeNode V) :=
  ⟨trivial, trivial, trivial⟩

theorem good_node_iff (l : AVLTreeNode V) (k : Int) (v : V)
    (r : AVLTreeNode V) (h c : Nat) :
    Good (.node l k v r h c) ↔
      Good l ∧ Good r ∧ h = 1 + max (ht l) (ht r) ∧ c = 1 + sz l + sz r ∧
      ht l ≤ ht r + 1 ∧ ht r ≤ ht l + 1 := by
  unfold Good
  rw [htOk_node_iff, szOk_node_iff, balOk_node_iff]
  tauto

theorem good_mkNode {l r : AVLTreeNode V} (k : Int) (v : V)
    (gl : Good l) (gr : Good r) (hb1 : ht l ≤ ht r + 1) (hb2 : ht r ≤ ht l + 1) :
    Good (mkNode l k v r) := by
  rw [mkNode, good_node_iff]
  refine ⟨gl, gr, ?_, ?_, hb1, hb2⟩
  · rw [get_height_eq gl.1, get_height_eq gr.1]
  · rw [get_num_eq gl.2.1, get_num_eq gr.2.1]

theorem ordOk_nil : OrdOk (.nil : AVLTreeNode V) := List.Pairwise.nil

theorem ordOk_node_iff (l : AVLTreeNode V) (k : Int) (v : V)
    (r : AVLTreeNode V) (h c : Nat) :
    OrdOk (.node l k v r h c) ↔
      OrdOk l ∧ OrdOk r ∧ (∀ x ∈ keys l, x < k) ∧ (∀ y ∈ keys r, k < y) := by
  unfold OrdOk
  rw [keys_node, List.pairwise_append, List.pairwise_cons]
  constructor
  · rintro ⟨pl, ⟨hk, pr⟩, hcross⟩
    exact ⟨pl, pr, fun x hx => hcross x hx k (List.mem_cons_self k _), hk⟩
  · rintro ⟨pl, pr, hlk, hkr⟩
    refine ⟨pl, ⟨hkr, pr⟩, ?_⟩
    rintro x hx b hb
    rcases List.mem_cons.1 hb with rfl | hb
    · exact hlk x hx
    · exact lt_trans (hlk x hx) (hkr b hb)

end AVLTree

/-! ### Behaviour of `rebalance` on a freshly updated node -/

namespace AVLTree

variable {V : Type}

@[simp] theorem get_balance_mkNode (l : AVLTreeNode V) (k : Int) (v : V)
    (r : AVLTreeNode V) :
    get_balance (mkNode l k v r) = (get_height r : Int) - (get_height l : Int) :=
  rfl

/-- When the freshly updated node is within the AVL bound, `rebalance`
returns it unchanged. -/
theorem rebalance_eq_self {l r : AVLTreeNode V} (k : Int) (v : V)
    (hl : HtOk l) (hr : HtOk r)
    (h1 : ht l ≤ ht r + 1) (h2 : ht r ≤ ht l + 1) :
    rebalance (mkNode l k v r) = mkNode l k v r := by
  have e1 : get_height l = ht l := get_height_eq hl
  have e2 : get_height r = ht r := get_height_eq hr
  have c1 : ¬ 2 ≤ get_balance (mkNode l k v r) := by
    rw [get_balance_mkNode, e1, e2]; omega
  have c2 : ¬ get_balance (mkNode l k v r) ≤ -2 := by
    rw [get_balance_mkNode, e1, e2]; omega
  rw [rebalance, if_neg c1, if_neg c2]

set_option maxHeartbeats 1600000 in
/-- Main specification of `rebalance` as called by `insert_aux` and
`delete_aux`: on a node whose children are well formed and whose height
difference is at most 2, the result is well formed, has the same in-order
sequence, and its height is the recomputed parent height or one less. -/
theorem rebalance_main {l r : AVLTreeNode V} (k : Int) (v : V)
    (gl : Good l) (gr : Good r) (hb1 : ht l ≤ ht r + 2) (hb2 : ht r ≤ ht l + 2) :
    Good (rebalance (mkNode l k v r)) ∧
    inorder (rebalance (mkNode l k v r)) = inorder l ++ (k, v) :: inorder r ∧
    1 + max (ht l) (ht r) ≤ ht (rebalance (mkNode l k v r)) + 1 ∧
    ht (rebalance (mkNode l k v r)) ≤ 1 + max (ht l) (ht r) := by
  have e1 : get_height l = ht l := get_height_eq gl.1
  have e2 : get_height r = ht r := get_height_eq gr.1
  rcases Nat.lt_or_ge (ht l + 1) (ht r) with hR | hR
  · -- right-heavy: ht r = ht l + 2
    have hr2 : ht r = ht l + 2 := by omega
    cases r with
    | nil => simp at hr2
    | node rl rk rv rr rh rc =>
      rw [good_node_iff] at gr
      obtain ⟨grl, grr, hrh, hrc, hb3, hb4⟩ := gr
      have erl : get_height rl = ht rl := get_height_eq grl.1
      have err : get_height rr = ht rr := get_height_eq grr.1
      have hmax : 1 + max (ht rl) (ht rr) = ht l + 2 := by
        rw [ht_node] at hr2; omega
      have hbal : 2 ≤ get_balance (mkNode l k v (.node rl rk rv rr rh rc)) := by
        rw [get_balance_mkNode, e1, e2, hr2]; omega
      rw [rebalance, if_pos hbal,
        show rightOf (mkNode l k v (.node rl rk rv rr rh rc)) =
          .node rl rk rv rr rh rc from rfl,
        show leftOf (.node rl rk rv rr rh rc : AVLTreeNode V) = rl from rfl,
        show rightOf (.node rl rk rv rr rh rc : AVLTreeNode V) = rr from rfl,
        erl, err]
      by_cases hcc : ht rl > ht rr
      · -- double rotation: right child is left-heavy
        rw [if_pos hcc]
        have hrl1 : ht rl = ht l + 1 := by omega
        have hrr1 : ht rr = ht l := by omega
        cases rl with
        | nil => simp at hrl1
        | node a ak av b ah ac =>
          rw [good_node_iff] at grl
          obtain ⟨ga, gb, hah, hac, hba, hbb⟩ := grl
          have hmab : 1 + max (ht a) (ht b) = ht l + 1 := by
            rw [ht_node] at hrl1; omega
          rw [show setRight (mkNode l k v (.node (.node a ak av b ah ac) rk rv rr rh rc))
                (right_rotate (.node (.node a ak av b ah ac) rk rv rr rh rc)) =
              AVLTreeNode.node l k v
                (mkNode a ak av (mkNode b rk rv rr))
                (1 + max (get_height l)
                  (get_height (.node (.node a ak av b ah ac) rk rv rr rh rc)))
                (1 + get_num_nodes_subtree l +
                  get_num_nodes_subtree (.node (.node a ak av b ah ac) rk rv rr rh rc))
              from rfl,
            show left_rotate (AVLTreeNode.node l k v
                (mkNode a ak av (mkNode b rk rv rr))
                (1 + max (get_height l)
                  (get_height (.node (.node a ak av b ah ac) rk rv rr rh rc)))
                (1 + get_num_nodes_subtree l +
                  get_num_nodes_subtree (.node (.node a ak av b ah ac) rk rv rr rh rc))) =
              mkNode (mkNode l k v a) ak av (mkNode b rk rv rr) from rfl]
          refine ⟨good_mkNode ak av
              (good_mkNode k v gl ga (by omega) (by omega))
              (good_mkNode rk rv gb grr (by omega) (by omega))
              (by simp; omega) (by simp; omega), ?_, ?_, ?_⟩
          · simp
          · simp; omega
          · simp; omega
      · -- single left rotation
        rw [if_neg hcc]
        have hrr1 : ht rr = ht l + 1 := by omega
        rw [show left_rotate (mkNode l k v (.node rl rk rv rr rh rc)) =
            mkNode (mkNode l k v rl) rk rv rr from rfl]
        refine ⟨good_mkNode rk rv
            (good_mkNode k v gl grl (by omega) (by omega)) grr
            (by simp; omega) (by simp; omega), ?_, ?_, ?_⟩
        · simp
        · simp; omega
        · simp; omega
  · rcases Nat.lt_or_ge (ht r + 1) (ht l) with hL | hL
    · -- left-heavy: ht l = ht r + 2
      have hl2 : ht l = ht r + 2 := by omega
      cases l with
      | nil => simp at hl2
      | node ll lk lv lr lh lc =>
        rw [good_node_iff] at gl
        obtain ⟨gll, glr, hlh, hlc, hb3, hb4⟩ := gl
        have ell : get_height ll = ht ll := get_height_eq gll.1
        have elr : get_height lr = ht lr := get_height_eq glr.1
        have hmax : 1 + max (ht ll) (ht lr) = ht r + 2 := by
          rw [ht_node] at hl2; omega
        have hnbal : ¬ 2 ≤ get_balance (mkNode (.node ll lk lv lr lh lc) k v r) := by
          rw [get_balance_mkNode, e1, e2, hl2]; omega
        have hbal : get_balance (mkNode (.node ll lk lv lr lh lc) k v r) ≤ -2 := by
          rw [get_balance_mkNode, e1, e2, hl2]; omega
        rw [rebalance, if_neg hnbal, if_pos hbal,
          show leftOf (mkNode (.node ll lk lv lr lh lc) k v r) =
            .node ll lk lv lr lh lc from rfl,
          show leftOf (.node ll lk lv lr lh lc : AVLTreeNode V) = ll from rfl,
          show rightOf (.node ll lk lv lr lh lc : AVLTreeNode V) = lr from rfl,
          ell, elr]
        by_cases hcc : ht lr > ht ll
        · -- double rotation: left child is right-heavy
          rw [if_pos hcc]
          have hlr1 : ht lr = ht r + 1 := by omega
          have hll1 : ht ll = ht r := by omega
          cases lr with
          | nil => simp at hlr1
          | node a ak av b ah ac =>
            rw [good_node_iff] at glr
            obtain ⟨ga, gb, hah, hac, hba, hbb⟩ := glr
            have hmab : 1 + max (ht a) (ht b) = ht r + 1 := by
              rw [ht_node] at hlr1; omega
            rw [show setLeft (mkNode (.node ll lk lv (.node a ak av b ah ac) lh lc) k v r)
                  (left_rotate (.node ll lk lv (.node a ak av b ah ac) lh lc)) =
                AVLTreeNode.node
                  (mkNode (mkNode ll lk lv a) ak av b) k v r
                  (1 + max (get_height (.node ll lk lv (.node a ak av b ah ac) lh lc))
                    (get_height r))
                  (1 + get_num_nodes_subtree (.node ll lk lv (.node a ak av b ah ac) lh lc) +
                    get_num_nodes_subtree r)
                from rfl,
              show right_rotate (AVLTreeNode.node
                  (mkNode (mkNode ll lk lv a) ak av b) k v r
                  (1 + max (get_height (.node ll lk lv (.node a ak av b ah ac) lh lc))
                    (get_height r))
                  (1 + get_num_nodes_subtree (.node ll lk lv (.node a ak av b ah ac) lh lc) +
                    get_num_nodes_subtree r)) =
                mkNode (mkNode ll lk lv a) ak av (mkNode b k v r) from rfl]
            refine ⟨good_mkNode ak av
                (good_mkNode lk lv gll ga (by omega) (by omega))
                (good_mkNode k v gb gr (by omega) (by omega))
                (by simp; omega) (by simp; omega), ?_, ?_, ?_⟩
            · simp
            · simp; omega
            · simp; omega
        · -- single right rotation
          rw [if_neg hcc]
          have hll1 : ht ll = ht r + 1 := by omega
          rw [show right_rotate (mkNode (.node ll lk lv lr lh lc) k v r) =
              mkNode ll lk lv (mkNode lr k v r) from rfl]
          refine ⟨good_mkNode lk lv gll
              (good_mkNode k v glr gr (by omega) (by omega))
              (by simp; omega) (by simp; omega), ?_, ?_, ?_⟩
          · simp
          · simp; omega
          · simp; omega
    · -- already balanced
      rw [rebalance_eq_self k v gl.1 gr.1 (by omega) (by omega)]
      exact ⟨good_mkNode k v gl gr (by omega) (by omega), rfl, by simp, by simp⟩

end AVLTree

/-! ### Sorted association-list lemmas -/

theorem insertKV_length {V : Type} (key : Int) (v : V) (L : List (Int × V)) :
    (insertKV key v L).length = L.length + 1 := by
  induction L with
  | nil => rfl
  | cons p rest ih =>
    obtain ⟨k2, v2⟩ := p
    rw [insertKV]
    split
    · simp
    · simp [ih]

theorem mem_fst_insertKV {V : Type} {key x : Int} {v : V} {L : List (Int × V)}
    (h : x ∈ (insertKV key v L).map Prod.fst) :
    x = key ∨ x ∈ L.map Prod.fst := by
  induction L with
  | nil => simpa [insertKV] using h
  | cons p rest ih =>
    obtain ⟨k2, v2⟩ := p
    rw [insertKV] at h
    split at h
    · simpa using h
    · rcases List.mem_map.1 h with ⟨q, hq, rfl⟩
      rcases List.mem_cons.1 hq with rfl | hq
      · simp
      · rcases ih (List.mem_map_of_mem Prod.fst hq) with h1 | h1
        · exact Or.inl h1
        · exact Or.inr (by simp [h1])

theorem insertKV_append_lt {V : Type} (key : Int) (v : V) {k : Int} (w : V)
    (A B : List (Int × V)) (h : key < k) :
    insertKV key v (A ++ (k, w) :: B) = insertKV key v A ++ (k, w) :: B := by
  induction A with
  | nil => simp [insertKV, if_pos h]
  | cons p rest ih =>
    obtain ⟨k2, v2⟩ := p
    rw [List.cons_append, insertKV, insertKV]
    split
    · simp
    · simp [ih]

theorem insertKV_append_gt {V : Type} (key : Int) (v : V) {k : Int} (w : V)
    (A B : List (Int × V)) (h : k < key)
    (hA : ∀ x ∈ A.map Prod.fst, x < key) :
    insertKV key v (A ++ (k, w) :: B) = A ++ (k, w) :: insertKV key v B := by
  induction A with
  | nil => simp [insertKV, if_neg (by omega : ¬ key < k)]
  | cons p rest ih =>
    obtain ⟨k2, v2⟩ := p
    have hk2 : k2 < key := hA k2 (by simp)
    rw [List.cons_append, insertKV, if_neg (by omega : ¬ key < k2)]
    simp only [List.cons_append, List.cons.injEq, true_and]
    exact ih fun x hx => hA x (by simp [hx])

theorem pairwise_insertKV {V : Type} {key : Int} {v : V} {L : List (Int × V)}
    (hp : (L.map Prod.fst).Pairwise (· < ·)) (hnot : key ∉ L.map Prod.fst) :
    ((insertKV key v L).map Prod.fst).Pairwise (· < ·) := by
  induction L with
  | nil => simp [insertKV]
  | cons p rest ih =>
    obtain ⟨k2, v2⟩ := p
    simp only [List.map_cons, List.pairwise_cons] at hp
    simp only [List.map_cons, List.mem_cons] at hnot
    push_neg at hnot
    rw [insertKV]
    split
    · rename_i hlt
      simp only [List.map_cons, List.pairwise_cons]
      refine ⟨?_, hp.1, hp.2⟩
      intro b hb
      rcases List.mem_cons.1 hb with rfl | hb
      · exact hlt
      · exact lt_trans hlt (hp.1 b hb)
    · rename_i hge
      simp only [List.map_cons, List.pairwise_cons]
      refine ⟨?_, ih hp.2 hnot.2⟩
      intro b hb
      rcases mem_fst_insertKV hb with rfl | hb
      · omega
      · exact hp.1 b hb

theorem eraseKV_sublist {V : Type} (key : Int) (L : List (Int × V)) :
    (eraseKV key L).Sublist L := by
  induction L with
  | nil => simp [eraseKV]
  | cons p rest ih =>
    obtain ⟨k2, v2⟩ := p
    rw [eraseKV]
    split
    · exact List.sublist_cons_self _ _
    · exact ih.cons₂ _

theorem eraseKV_length {V : Type} {key : Int} {L : List (Int × V)}
    (h : key ∈ L.map Prod.fst) :
    (eraseKV key L).length + 1 = L.length := by
  induction L with
  | nil => simp at h
  | cons p rest ih =>
    obtain ⟨k2, v2⟩ := p
    rw [eraseKV]
    split
    · simp
    · rename_i hne
      simp only [List.map_cons, List.mem_cons] at h
      rcases h with rfl | h
      · exact absurd rfl hne
      · simp [ih h]

theorem eraseKV_append_mem {V : Type} (key : Int) (k : Int) (w : V)
    (A B : List (Int × V)) (h : key ∈ A.map Prod.fst) :
    eraseKV key (A ++ (k, w) :: B) = eraseKV key A ++ (k, w) :: B := by
  induction A with
  | nil => simp at h
  | cons p rest ih =>
    obtain ⟨k2, v2⟩ := p
    rw [List.cons_append, eraseKV, eraseKV]
    split
    · simp
    · rename_i hne
      simp only [List.map_cons, List.mem_cons] at h
      rcases h with rfl | h
      · exact absurd rfl hne
      · simp [ih h]

theorem eraseKV_append_gt {V : Type} (key : Int) (k : Int) (w : V)
    (A B : List (Int × V)) (hA : key ∉ A.map Prod.fst) (hk : k ≠ key) :
    eraseKV key (A ++ (k, w) :: B) = A ++ (k, w) :: eraseKV key B := by
  induction A with
  | nil => simp [eraseKV, if_neg hk]
  | cons p rest ih =>
    obtain ⟨k2, v2⟩ := p
    simp only [List.map_cons, List.mem_cons] at hA
    push_neg at hA
    rw [List.cons_append, eraseKV, if_neg (Ne.symm hA.1)]
    simp [ih hA.2]

theorem eraseKV_append_self {V : Type} (key : Int) (w : V)
    (A B : List (Int × V)) (hA : key ∉ A.map Prod.fst) :
    eraseKV key (A ++ (key, w) :: B) = A ++ B := by
  induction A with
  | nil => simp [eraseKV]
  | cons p rest ih =>
    obtain ⟨k2, v2⟩ := p
    simp only [List.map_cons, List.mem_cons] at hA
    push_neg at hA
    rw [List.cons_append, eraseKV, if_neg (Ne.symm hA.1)]
    simp [ih hA.2]

theorem not_mem_eraseKV {V : Type} {key : Int} {L : List (Int × V)}
    (h : (L.map Prod.fst).Nodup) :
    key ∉ (eraseKV key L).map Prod.fst := by
  induction L with
  | nil => simp [eraseKV]
  | cons p rest ih =>
    obtain ⟨k2, v2⟩ := p
    simp only [List.map_cons, List.nodup_cons] at h
    rw [eraseKV]
    split
    · rename_i he
      subst he
      intro hc
      exact h.1 hc
    · rename_i hne
      simp only [List.map_cons, List.mem_cons]
      push_neg
      exact ⟨fun hc => hne hc.symm, ih h.2⟩

theorem erase_insertKV {V : Type} (key : Int) (v : V) (L : List (Int × V))
    (h : key ∉ L.map Prod.fst) :
    eraseKV key (insertKV key v L) = L := by
  induction L with
  | nil => simp [insertKV, eraseKV]
  | cons p rest ih =>
    obtain ⟨k2, v2⟩ := p
    simp only [List.map_cons, List.mem_cons] at h
    push_neg at h
    rw [insertKV]
    split
    · rw [eraseKV, if_pos rfl]
    · rw [eraseKV, if_neg (Ne.symm h.1)]
      simp [ih h.2]

theorem mem_fst_eraseKV {V : Type} {x key : Int} {L : List (Int × V)}
    (h : x ∈ (eraseKV key L).map Prod.fst) : x ∈ L.map Prod.fst :=
  (List.Sublist.map Prod.fst (eraseKV_sublist key L)).mem h

/-! ### Correctness of `insert_aux` -/

namespace AVLTree

variable {V : Type}

theorem mem_keys_node {l r : AVLTreeNode V} {k x : Int} {v : V} {h c : Nat} :
    x ∈ keys (.node l k v r h c) ↔ x ∈ keys l ∨ x = k ∨ x ∈ keys r := by
  rw [keys_node]; simp

/-- Inserting a key that is already present raises the duplicate-item
`ValueError` (src/avl.py:78-79). -/
theorem insert_aux_err (key : Int) (item : V) :
    ∀ (t : AVLTreeNode V) (len : Int), OrdOk t → key ∈ keys t →
      insert_aux t key item len = .error "Inserting duplicate item" := by
  intro t
  induction t with
  | nil => intro len _ hk; simp [keys] at hk
  | node l k v r h c ihl ihr =>
    intro len o hk
    rw [ordOk_node_iff] at o
    obtain ⟨ol, or2, hlk, hkr⟩ := o
    rw [insert_aux]
    by_cases h1 : key < k
    · have hm : key ∈ keys l := by
        rcases mem_keys_node.1 hk with h2 | h2 | h2
        · exact h2
        · omega
        · exact absurd (hkr key h2) (by omega)
      rw [if_pos h1, ihl len ol hm]
    · by_cases h2 : k < key
      · have hm : key ∈ keys r := by
          rcases mem_keys_node.1 hk with h3 | h3 | h3
          · exact absurd (hlk key h3) (by omega)
          · omega
          · exact h3
        rw [if_neg h1, if_pos h2, ihr len or2 hm]
      · rw [if_neg h1, if_neg h2]

/-- Main specification of `insert_aux` on a well-formed tree and a fresh
key: it succeeds, increments the length counter, produces a well-formed
tree whose in-order sequence is the sorted insertion of the new pair, and
grows the height by at most one. -/
theorem insert_aux_main (key : Int) (item : V) :
    ∀ (t : AVLTreeNode V) (len : Int), Good t → OrdOk t → key ∉ keys t →
      ∃ t2, insert_aux t key item len = .ok (t2, len + 1) ∧
        inorder t2 = insertKV key item (inorder t) ∧ Good t2 ∧
        ht t ≤ ht t2 ∧ ht t2 ≤ ht t + 1 := by
  intro t
  induction t with
  | nil =>
    intro len _ _ _
    have hn : HtOk (AVLTreeNode.nil : AVLTreeNode V) := trivial
    refine ⟨mkNode .nil key item .nil, ?_, rfl, ?_, by simp, by simp⟩
    · rw [insert_aux, rebalance_eq_self key item hn hn (by simp) (by simp)]
    · exact good_mkNode key item good_nil good_nil (by simp) (by simp)
  | node l k v r h c ihl ihr =>
    intro len g o hnot
    rw [good_node_iff] at g
    obtain ⟨gl, gr, hh, hc, hb1, hb2⟩ := g
    rw [ordOk_node_iff] at o
    obtain ⟨ol, or2, hlk, hkr⟩ := o
    have hnl : key ∉ keys l := fun hx => hnot (mem_keys_node.2 (Or.inl hx))
    have hnk : key ≠ k := fun hx => hnot (mem_keys_node.2 (Or.inr (Or.inl hx)))
    have hnr : key ∉ keys r := fun hx => hnot (mem_keys_node.2 (Or.inr (Or.inr hx)))
    by_cases h1 : key < k
    · obtain ⟨l2, he, hio, g2, hh1, hh2⟩ := ihl len gl ol hnl
      by_cases hd : ht l2 ≤ ht r + 1
      · have hid := rebalance_eq_self k v g2.1 gr.1 hd (by omega)
        refine ⟨mkNode l2 k v r, ?_, ?_, ?_, ?_, ?_⟩
        · rw [insert_aux, if_pos h1, he]
          show Except.ok (rebalance (mkNode l2 k v r), len + 1) = _
          rw [hid]
        · rw [inorder_mkNode, hio, inorder_node,
            insertKV_append_lt key item v (inorder l) (inorder r) h1]
        · exact good_mkNode k v g2 gr hd (by omega)
        · simp only [ht_node, ht_mkNode]; omega
        · simp only [ht_node, ht_mkNode]; omega
      · push_neg at hd
        obtain ⟨gg, hioR, hA, hB⟩ :=
          rebalance_main k v g2 gr (by omega) (by omega)
        refine ⟨rebalance (mkNode l2 k v r), ?_, ?_, gg, ?_, ?_⟩
        · rw [insert_aux, if_pos h1, he]
        · rw [hioR, hio, inorder_node,
            insertKV_append_lt key item v (inorder l) (inorder r) h1]
        · simp only [ht_node]; omega
        · simp only [ht_node]; omega
    · by_cases h2 : k < key
      · obtain ⟨r2, he, hio, g2, hh1, hh2⟩ := ihr len gr or2 hnr
        have hAb : ∀ x ∈ (inorder l).map Prod.fst, x < key :=
          fun x hx => lt_trans (hlk x hx) h2
        by_cases hd : ht r2 ≤ ht l + 1
        · have hid := rebalance_eq_self k v gl.1 g2.1 (by omega) hd
          refine ⟨mkNode l k v r2, ?_, ?_, ?_, ?_, ?_⟩
          · rw [insert_aux, if_neg (by omega : ¬ key < k), if_pos h2, he]
            show Except.ok (rebalance (mkNode l k v r2), len + 1) = _
            rw [hid]
          · rw [inorder_mkNode, hio, inorder_node,
              insertKV_append_gt key item v (inorder l) (inorder r) h2 hAb]
          · exact good_mkNode k v gl g2 (by omega) hd
          · simp only [ht_node, ht_mkNode]; omega
          · simp only [ht_node, ht_mkNode]; omega
        · push_neg at hd
          obtain ⟨gg, hioR, hA, hB⟩ :=
            rebalance_main k v gl g2 (by omega) (by omega)
          refine ⟨rebalance (mkNode l k v r2), ?_, ?_, gg, ?_, ?_⟩
          · rw [insert_aux, if_neg (by omega : ¬ key < k), if_pos h2, he]
          · rw [hioR, hio, inorder_node,
              insertKV_append_gt key item v (inorder l) (inorder r) h2 hAb]
          · simp only [ht_node]; omega
          · simp only [ht_node]; omega
      · exact absurd (by omega : key = k) hnk

end AVLTree

/-! ### Correctness of `delete_aux` -/

namespace AVLTree

variable {V : Type}

/-- The successor lookup returns the head of the in-order sequence of the
subtree it is applied to. -/
theorem minKV_eq_head (t : AVLTreeNode V) : minKV t = (inorder t).head? := by
  induction t with
  | nil => rfl
  | node l k v r h c ihl ihr =>
    cases l with
    | nil => rw [minKV]; simp
    | node a ak av b ah ac =>
      rw [minKV, ihl]
      cases hx : inorder (AVLTreeNode.node a ak av b ah ac) with
      | nil =>
        exact absurd hx (inorder_ne_nil (by intro hcon; cases hcon))
      | cons p rest => simp [hx]

/-- Deleting an absent key raises the non-existent-item `ValueError`
(src/avl.py:103-104). -/
theorem delete_aux_err (key : Int) :
    ∀ (t : AVLTreeNode V) (len : Int), OrdOk t → key ∉ keys t →
      delete_aux t key len = .error "Deleting non-existent item" := by
  intro t
  induction t with
  | nil => intro len _ _; rfl
  | node l k v r h c ihl ihr =>
    intro len o hnot
    rw [ordOk_node_iff] at o
    obtain ⟨ol, or2, hlk, hkr⟩ := o
    have hnl : key ∉ keys l := fun hx => hnot (mem_keys_node.2 (Or.inl hx))
    have hnk : key ≠ k := fun hx => hnot (mem_keys_node.2 (Or.inr (Or.inl hx)))
    have hnr : key ∉ keys r := fun hx => hnot (mem_keys_node.2 (Or.inr (Or.inr hx)))
    rw [delete_aux]
    by_cases h1 : key < k
    · rw [if_pos h1, ihl len ol hnl]
    · by_cases h2 : k < key
      · rw [if_neg h1, if_pos h2, ihr len or2 hnr]
      · exact absurd (by omega : key = k) hnk

set_option maxHeartbeats 1600000 in
/-- Main specification of `delete_aux` on a well-formed tree containing the
key: it succeeds, decrements the length counter, produces a well-formed
tree whose in-order sequence is the old one with the key's entry removed,
and shrinks the height by at most one. -/
theorem delete_aux_main :
    ∀ (t : AVLTreeNode V) (key : Int) (len : Int), Good t → OrdOk t →
      key ∈ keys t →
      ∃ t2, delete_aux t key len = .ok (t2, len - 1) ∧
        inorder t2 = eraseKV key (inorder t) ∧ Good t2 ∧
        ht t2 ≤ ht t ∧ ht t ≤ ht t2 + 1 := by
  intro t
  induction t with
  | nil => intro key len _ _ hk; simp [keys] at hk
  | node l k v r h c ihl ihr =>
    intro key len g o hk
    rw [good_node_iff] at g
    obtain ⟨gl, gr, hh, hc, hb1, hb2⟩ := g
    rw [ordOk_node_iff] at o
    obtain ⟨ol, or2, hlk, hkr⟩ := o
    by_cases h1 : key < k
    · have hm : key ∈ keys l := by
        rcases mem_keys_node.1 hk with h3 | h3 | h3
        · exact h3
        · omega
        · exact absurd (hkr key h3) (by omega)
      obtain ⟨l2, he, hio, g2, hd1, hd2⟩ := ihl key len gl ol hm
      by_cases hdd : ht r ≤ ht l2 + 1
      · have hid := rebalance_eq_self k v g2.1 gr.1 (by omega) hdd
        refine ⟨mkNode l2 k v r, ?_, ?_, ?_, ?_, ?_⟩
        · rw [delete_aux, if_pos h1, he]
          show Except.ok (rebalance (mkNode l2 k v r), len - 1) = _
          rw [hid]
        · rw [inorder_mkNode, hio, inorder_node,
            eraseKV_append_mem key k v (inorder l) (inorder r) hm]
        · exact good_mkNode k v g2 gr (by omega) hdd
        · simp only [ht_node, ht_mkNode]; omega
        · simp only [ht_node, ht_mkNode]; omega
      · push_neg at hdd
        obtain ⟨gg, hioR, hA, hB⟩ :=
          rebalance_main k v g2 gr (by omega) (by omega)
        refine ⟨rebalance (mkNode l2 k v r), ?_, ?_, gg, ?_, ?_⟩
        · rw [delete_aux, if_pos h1, he]
        · rw [hioR, hio, inorder_node,
            eraseKV_append_mem key k v (inorder l) (inorder r) hm]
        · simp only [ht_node]; omega
        · simp only [ht_node]; omega
    · by_cases h2 : k < key
      · have hm : key ∈ keys r := by
          rcases mem_keys_node.1 hk with h3 | h3 | h3
          · exact absurd (hlk key h3) (by omega)
          · omega
          · exact h3
        obtain ⟨r2, he, hio, g2, hd1, hd2⟩ := ihr key len gr or2 hm
        have hne : k ≠ key := by omega
        have hnl : key ∉ (inorder l).map Prod.fst := by
          intro hx
          exact absurd (hlk key hx) (by omega)
        by_cases hdd : ht l ≤ ht r2 + 1
        · have hid := rebalance_eq_self k v gl.1 g2.1 hdd (by omega)
          refine ⟨mkNode l k v r2, ?_, ?_, ?_, ?_, ?_⟩
          · rw [delete_aux, if_neg h1, if_pos h2, he]
            show Except.ok (rebalance (mkNode l k v r2), len - 1) = _
            rw [hid]
          · rw [inorder_mkNode, hio, inorder_node,
              eraseKV_append_gt key k v (inorder l) (inorder r) hnl hne]
          · exact good_mkNode k v gl g2 hdd (by omega)
          · simp only [ht_node, ht_mkNode]; omega
          · simp only [ht_node, ht_mkNode]; omega
        · push_neg at hdd
          obtain ⟨gg, hioR, hA, hB⟩ :=
            rebalance_main k v gl g2 (by omega) (by omega)
          refine ⟨rebalance (mkNode l k v r2), ?_, ?_, gg, ?_, ?_⟩
          · rw [delete_aux, if_neg h1, if_pos h2, he]
          · rw [hioR, hio, inorder_node,
              eraseKV_append_gt key k v (inorder l) (inorder r) hnl hne]
          · simp only [ht_node]; omega
          · simp only [ht_node]; omega
      · -- found the key at this node
        have hkk : key = k := by omega
        subst hkk
        have hnl : key ∉ (inorder l).map Prod.fst := by
          intro hx
          exact absurd (hlk key hx) (by omega)
        cases l with
        | nil =>
          cases r with
          | nil =>
            refine ⟨.nil, ?_, ?_, good_nil, by simp, by simp⟩
            · rw [delete_aux, if_neg h1, if_neg h2]
              simp
            · simp [eraseKV]
          | node rl rk rv rr rh rc =>
            refine ⟨.node rl rk rv rr rh rc, ?_, ?_, gr, ?_, ?_⟩
            · rw [delete_aux, if_neg h1, if_neg h2]
              simp
            · simp [eraseKV]
            · simp only [ht_node, ht_nil]; omega
            · simp only [ht_node, ht_nil]; omega
        | node ll lk lv lr lh lc =>
          cases r with
          | nil =>
            refine ⟨.node ll lk lv lr lh lc, ?_, ?_, gl, ?_, ?_⟩
            · rw [delete_aux, if_neg h1, if_neg h2]
              simp
            · have h9 : inorder (AVLTreeNode.node (.node ll lk lv lr lh lc) key v
                  .nil h c) = inorder (.node ll lk lv lr lh lc) ++ (key, v) :: [] := by
                simp
              rw [h9,
                eraseKV_append_self key v (inorder (.node ll lk lv lr lh lc)) [] hnl]
              simp
            · simp only [ht_node, ht_nil]; omega
            · simp only [ht_node, ht_nil]; omega
          | node rl rk rv rr rh rc =>
            -- two children: successor from the right subtree
            cases hx : inorder (AVLTreeNode.node rl rk rv rr rh rc) with
            | nil => exact absurd hx (inorder_ne_nil (by intro hcon; cases hcon))
            | cons p rest =>
              obtain ⟨sk, sv⟩ := p
              have hmin : minKV (AVLTreeNode.node rl rk rv rr rh rc) =
                  some (sk, sv) := by
                rw [minKV_eq_head, hx]; rfl
              have hskr : sk ∈ keys (AVLTreeNode.node rl rk rv rr rh rc) := by
                rw [keys, hx]; simp
              obtain ⟨r2, he, hio, g2, hd1, hd2⟩ :=
                ihr sk len gr or2 hskr
              have hio2 : inorder r2 = rest := by
                rw [hio, hx, eraseKV, if_pos rfl]
              have hlsk : ∀ x ∈ keys (AVLTreeNode.node ll lk lv lr lh lc), x < sk :=
                fun x hxx => lt_trans (hlk x hxx) (hkr sk hskr)
              have herase : eraseKV key
                  (inorder (AVLTreeNode.node (.node ll lk lv lr lh lc) key v
                    (.node rl rk rv rr rh rc) h c)) =
                  inorder (AVLTreeNode.node ll lk lv lr lh lc) ++ (sk, sv) :: rest := by
                rw [inorder_node,
                  eraseKV_append_self key v (inorder (.node ll lk lv lr lh lc))
                    (inorder (.node rl rk rv rr rh rc)) hnl, hx]
              by_cases hdd : ht (AVLTreeNode.node ll lk lv lr lh lc) ≤ ht r2 + 1
              · have hid := rebalance_eq_self sk sv gl.1 g2.1 hdd (by
                  simp only [ht_node] at hb1 hb2 hd1 hd2 ⊢; omega)
                refine ⟨mkNode (.node ll lk lv lr lh lc) sk sv r2, ?_, ?_, ?_, ?_, ?_⟩
                · rw [delete_aux, if_neg h1, if_neg h2]
                  simp [hmin, he, hid]
                · rw [inorder_mkNode, hio2, herase]
                · exact good_mkNode sk sv gl g2 hdd (by
                    simp only [ht_node] at hb1 hb2 hd1 hd2 ⊢; omega)
                · simp only [ht_node, ht_mkNode] at hb1 hb2 hd1 hd2 ⊢; omega
                · simp only [ht_node, ht_mkNode] at hb1 hb2 hd1 hd2 ⊢; omega
              · push_neg at hdd
                obtain ⟨gg, hioR, hA, hB⟩ :=
                  rebalance_main sk sv gl g2
                    (by simp only [ht_node] at hb1 hb2 hd1 hd2 ⊢; omega)
                    (by simp only [ht_node] at hb1 hb2 hd1 hd2 ⊢; omega)
                refine ⟨rebalance (mkNode (.node ll lk lv lr lh lc) sk sv r2),
                  ?_, ?_, gg, ?_, ?_⟩
                · rw [delete_aux, if_neg h1, if_neg h2]
                  simp [hmin, he]
                · rw [hioR, hio2, herase]
                · simp only [ht_node] at hb1 hb2 hd1 hd2 hA hB hdd ⊢; omega
                · simp only [ht_node] at hb1 hb2 hd1 hd2 hA hB hdd ⊢; omega

end AVLTree

/-! ### Correctness of `kth_largest_aux` and the state-level wrappers -/

namespace AVLTree

variable {V : Type}

/-- On a tree with correct subtree counts, asking for the `(sz t - j)`-th
largest element (`0 ≤ j < sz t`) returns the element at 0-based position `j`
of the ascending in-order sequence. -/
theorem kth_aux_correct :
    ∀ (t : AVLTreeNode V) (j : Nat), Good t → j < sz t →
      kth_largest_aux ((sz t : Int) - j) t = (inorder t)[j]? := by
  intro t
  induction t with
  | nil => intro j _ hj; simp at hj
  | node l k v r h c ihl ihr =>
    intro j g hj
    rw [good_node_iff] at g
    obtain ⟨gl, gr, hh, hc, hb1, hb2⟩ := g
    have hnum : get_num_nodes_subtree r = sz r := get_num_eq gr.2.1
    simp only [sz_node] at hj
    rw [kth_largest_aux, hnum]
    split_ifs with e1 e2 e3
    · -- this node is the answer: j = sz l
      simp only [sz_node] at e1
      rw [inorder_node,
        List.getElem?_append_right (by rw [inorder_length]; omega :
          (inorder l).length ≤ j)]
      have h0 : j - (inorder l).length = 0 := by rw [inorder_length]; omega
      rw [h0, List.getElem?_cons_zero]
    · -- descend into the right subtree
      simp only [sz_node] at e1 e2
      have hjr : sz l + 1 ≤ j := by omega
      have ihr2 := ihr (j - (sz l + 1)) gr (by omega)
      have hK : (sz (AVLTreeNode.node l k v r h c) : Int) - (j : Int) =
          (sz r : Int) - ((j - (sz l + 1) : Nat) : Int) := by
        simp only [sz_node]; omega
      rw [hK, ihr2, inorder_node,
        List.getElem?_append_right (by rw [inorder_length]; omega :
          (inorder l).length ≤ j)]
      have hsucc : j - (inorder l).length = (j - (sz l + 1)) + 1 := by
        rw [inorder_length]; omega
      rw [hsucc, List.getElem?_cons_succ]
    · -- descend into the left subtree
      simp only [sz_node] at e1 e2 e3
      have hjl : j < sz l := by omega
      have ihl2 := ihl j gl hjl
      have hK : (sz (AVLTreeNode.node l k v r h c) : Int) - (j : Int) -
          (sz r : Int) - 1 = (sz l : Int) - (j : Int) := by
        simp only [sz_node]; omega
      rw [hK, ihl2, inorder_node,
        List.getElem?_append_left (by rw [inorder_length]; omega :
          j < (inorder l).length)]
    · exact absurd (by simp only [sz_node]; omega :
        (sz (AVLTreeNode.node l k v r h c) : Int) - (j : Int) >
          (sz r : Int) + 1) e3

theorem stInv_empty : StInv (empty : AVLTree V) :=
  ⟨⟨trivial, trivial, trivial⟩, List.Pairwise.nil, rfl⟩

/-- Successful insertion at the state level. -/
theorem insert_ok {s : AVLTree V} (hs : StInv s) (key : Int) (item : V)
    (hk : key ∉ keys s.root) :
    ∃ s2, insert s key item = .ok s2 ∧
      inorder s2.root = insertKV key item (inorder s.root) ∧
      StInv s2 ∧ s2.length = s.length + 1 := by
  obtain ⟨g, o, hlen⟩ := hs
  obtain ⟨t2, he, hio, g2, _, _⟩ := insert_aux_main key item s.root s.length g o hk
  refine ⟨⟨t2, s.length + 1⟩, ?_, hio, ⟨g2, ?_, ?_⟩, rfl⟩
  · simp only [insert, he]
  · show ((inorder t2).map Prod.fst).Pairwise (· < ·)
    rw [hio]
    exact pairwise_insertKV o hk
  · show s.length + 1 = (sz t2 : Int)
    have h2 : (inorder t2).length = (inorder s.root).length + 1 := by
      rw [hio, insertKV_length]
    rw [inorder_length, inorder_length] at h2
    omega

/-- Failing insertion at the state level: duplicate key. -/
theorem insert_err {s : AVLTree V} (o : OrdOk s.root) (key : Int) (item : V)
    (hk : key ∈ keys s.root) :
    insert s key item = .error "Inserting duplicate item" := by
  simp only [insert, insert_aux_err key item s.root s.length o hk]

/-- Successful deletion at the state level. -/
theorem delete_ok {s : AVLTree V} (hs : StInv s) (key : Int)
    (hk : key ∈ keys s.root) :
    ∃ s2, delete s key = .ok s2 ∧
      inorder s2.root = eraseKV key (inorder s.root) ∧
      StInv s2 ∧ s2.length = s.length - 1 := by
  obtain ⟨g, o, hlen⟩ := hs
  obtain ⟨t2, he, hio, g2, _, _⟩ := delete_aux_main s.root key s.length g o hk
  refine ⟨⟨t2, s.length - 1⟩, ?_, hio, ⟨g2, ?_, ?_⟩, rfl⟩
  · simp only [delete, he]
  · show ((inorder t2).map Prod.fst).Pairwise (· < ·)
    rw [hio]
    exact List.Pairwise.sublist
      (List.Sublist.map Prod.fst (eraseKV_sublist key (inorder s.root))) o
  · show s.length - 1 = (sz t2 : Int)
    have h2 : (inorder t2).length + 1 = (inorder s.root).length := by
      rw [hio]
      exact eraseKV_length hk
    rw [inorder_length, inorder_length] at h2
    omega

/-- Failing deletion at the state level: absent key. -/
theorem delete_err {s : AVLTree V} (o : OrdOk s.root) (key : Int)
    (hk : key ∉ keys s.root) :
    delete s key = .error "Deleting non-existent item" := by
  simp only [delete, delete_aux_err key s.root s.length o hk]

theorem stInv_step {s : AVLTree V} (hs : StInv s) (op : Op V) :
    StInv (step s op) := by
  cases op with
  | ins key item =>
    by_cases hk : key ∈ keys s.root
    · rw [step, insert_err hs.2.1 key item hk]
      exact hs
    · obtain ⟨s2, he, _, hs2, _⟩ := insert_ok hs key item hk
      rw [step, he]
      exact hs2
  | del key =>
    by_cases hk : key ∈ keys s.root
    · obtain ⟨s2, he, _, hs2, _⟩ := delete_ok hs key hk
      rw [step, he]
      exact hs2
    · rw [step, delete_err hs.2.1 key hk]
      exact hs

theorem stInv_run (ops : List (Op V)) : StInv (run ops) := by
  rw [run]
  have h2 : ∀ (s : AVLTree V), StInv s → StInv (ops.foldl step s) := by
    induction ops with
    | nil => intro s hs; exact hs
    | cons op rest ih =>
      intro s hs
      exact ih (step s op) (stInv_step hs op)
  exact h2 empty stInv_empty

/-- The recursive per-node invariant follows from the structural predicates. -/
theorem avlInv_of_good_ord : ∀ t : AVLTreeNode V, Good t → OrdOk t → AVLInv t := by
  intro t
  induction t with
  | nil => intro _ _; trivial
  | node l k v r h c ihl ihr =>
    intro g o
    rw [good_node_iff] at g
    obtain ⟨gl, gr, hh, hc, hb1, hb2⟩ := g
    rw [ordOk_node_iff] at o
    obtain ⟨ol, or2, hlk, hkr⟩ := o
    have el : get_height l = ht l := get_height_eq gl.1
    have er : get_height r = ht r := get_height_eq gr.1
    have nl : get_num_nodes_subtree l = sz l := get_num_eq gl.2.1
    have nr : get_num_nodes_subtree r = sz r := get_num_eq gr.2.1
    exact ⟨ihl gl ol, ihr gr or2, hlk, hkr, by rw [el, er]; exact hh,
      by rw [nl, nr]; exact hc, by rw [el, er]; exact hb1, by rw [el, er]; exact hb2⟩

theorem nodup_keys_of_ordOk {t : AVLTreeNode V} (o : OrdOk t) :
    (keys t).Nodup :=
  o.imp ne_of_lt

end AVLTree

namespace AVLTree

variable {V : Type}

/-- Wrapper-level success of `kth_largest` on an in-range rank. -/
theorem kth_largest_ok {s : AVLTree V} (hs : StInv s) (k : Int)
    (h1 : 1 ≤ k) (h2 : k ≤ s.length) :
    ∃ p, kth_largest s k = .ok (some p) ∧
      (inorder s.root)[(s.length - k).toNat]? = some p := by
  obtain ⟨g, o, hlen⟩ := hs
  have hj : (s.length - k).toNat < sz s.root := by omega
  have hg : ¬(k > (get_num_nodes_subtree s.root : Int) ∨ k < 1) := by
    rw [get_num_eq g.2.1]; omega
  have hK : (sz s.root : Int) - ((s.length - k).toNat : Int) = k := by omega
  have hk2 := kth_aux_correct s.root (s.length - k).toNat g hj
  rw [hK] at hk2
  have hlt : (s.length - k).toNat < (inorder s.root).length := by
    rw [inorder_length]; exact hj
  refine ⟨(inorder s.root).get ⟨(s.length - k).toNat, hlt⟩, ?_, ?_⟩
  · rw [kth_largest, if_neg hg, hk2, List.getElem?_eq_getElem hlt]
    rfl
  · rw [List.getElem?_eq_getElem hlt]
    rfl

theorem htOk_leftOf {t : AVLTreeNode V} (h : HtOk t) : HtOk (leftOf t) := by
  cases t with
  | nil => trivial
  | node l k v r hh c => exact h.1

theorem htOk_rightOf {t : AVLTreeNode V} (h : HtOk t) : HtOk (rightOf t) := by
  cases t with
  | nil => trivial
  | node l k v r hh c => exact h.2.1

end AVLTree

/-- A key occurs in the key sequence after its own sorted insertion. -/
theorem self_mem_insertKV {V : Type} (key : Int) (v : V) (L : List (Int × V)) :
    key ∈ (insertKV key v L).map Prod.fst := by
  induction L with
  | nil => simp [insertKV]
  | cons p rest ih =>
    obtain ⟨k2, v2⟩ := p
    rw [insertKV]
    split
    · simp
    · simpa using Or.inr ih

/-! ### The claims -/

/-- C1.  For every sequence of insert and delete operations applied to an
initially empty `AVLTree` (a raising operation leaves the tree untouched, so
this covers every sequence of successful operations), every node of the
resulting tree satisfies all structural invariants: BST order around each
key, `height` and `num_nodes_subtree` caches matching the children, AVL
balance of the children's heights, and no two nodes share a key. -/
theorem claim_C1_invariant_preservation (V : Type) (ops : List (Op V)) :
    AVLTree.AVLInv (run ops).root ∧ (AVLTree.keys (run ops).root).Nodup := by
  have h := AVLTree.stInv_run ops
  exact ⟨AVLTree.avlInv_of_good_ord _ h.1 h.2.1,
    AVLTree.nodup_keys_of_ordOk h.2.1⟩

/-- C2.  For every tree satisfying the structural invariants, of size `N`,
and every rank `1 ≤ k ≤ N`, `kth_largest k` returns the key/value pair at
0-indexed position `N - k` of the ascending in-order sequence (the query is
a pure function of the tree in this embedding, so it cannot mutate). -/
theorem claim_C2_kth_largest_correct (V : Type) (s : AVLTree V) (k : Int)
    (hs : AVLTree.StInv s) (h1 : 1 ≤ k) (h2 : k ≤ s.length) :
    ∃ p, AVLTree.kth_largest s k = Except.ok (some p) ∧
      (AVLTree.inorder s.root)[(s.length - k).toNat]? = some p :=
  AVLTree.kth_largest_ok hs k h1 h2

/-- C2 witness at a concrete tree: keys `1, 2, 3`, second largest is `2`. -/
theorem claim_C2_kth_largest_correct_witness :
    ∃ p, AVLTree.kth_largest (run [Op.ins 2 0, Op.ins 1 0, Op.ins 3 (0 : Int)]) 2 =
        Except.ok (some p) ∧
      (AVLTree.inorder (run [Op.ins 2 0, Op.ins 1 0, Op.ins 3 (0 : Int)]).root)[
        (((run [Op.ins 2 0, Op.ins 1 0, Op.ins 3 (0 : Int)]).length - 2).toNat)]? =
        some p :=
  claim_C2_kth_largest_correct Int _ 2 (AVLTree.stInv_run _) (by decide) (by decide)

/-- C3.  For every tree satisfying the invariants and containing key `K`,
`delete K` succeeds, afterwards `K` is absent, the in-order sequence equals
the old sequence with `K`'s entry removed (so every other pair is intact),
the live size drops by exactly one, and all structural invariants hold —
the proof covers in particular the two-children case, which copies the
in-order successor into the node and deletes the successor's key from the
right subtree. -/
theorem claim_C3_delete_correct (V : Type) (s : AVLTree V) (key : Int)
    (hs : AVLTree.StInv s) (hk : key ∈ AVLTree.keys s.root) :
    ∃ s2, AVLTree.delete s key = Except.ok s2 ∧
      AVLTree.inorder s2.root = eraseKV key (AVLTree.inorder s.root) ∧
      key ∉ AVLTree.keys s2.root ∧
      s2.length = s.length - 1 ∧
      AVLTree.AVLInv s2.root ∧ (AVLTree.keys s2.root).Nodup := by
  obtain ⟨s2, he, hio, hs2, hlen⟩ := AVLTree.delete_ok hs key hk
  refine ⟨s2, he, hio, ?_, hlen,
    AVLTree.avlInv_of_good_ord _ hs2.1 hs2.2.1,
    AVLTree.nodup_keys_of_ordOk hs2.2.1⟩
  show key ∉ (AVLTree.inorder s2.root).map Prod.fst
  rw [hio]
  exact not_mem_eraseKV (AVLTree.nodup_keys_of_ordOk hs.2.1)

/-- C3 witness: delete the root key `2` of the three-node tree. -/
theorem claim_C3_delete_correct_witness :
    ∃ s2, AVLTree.delete (run [Op.ins 2 0, Op.ins 1 0, Op.ins 3 (0 : Int)]) 2 =
        Except.ok s2 ∧
      AVLTree.inorder s2.root =
        eraseKV 2 (AVLTree.inorder (run [Op.ins 2 0, Op.ins 1 0, Op.ins 3 (0 : Int)]).root) ∧
      (2 : Int) ∉ AVLTree.keys s2.root ∧
      s2.length = (run [Op.ins 2 0, Op.ins 1 0, Op.ins 3 (0 : Int)]).length - 1 ∧
      AVLTree.AVLInv s2.root ∧ (AVLTree.keys s2.root).Nodup :=
  claim_C3_delete_correct Int _ 2 (AVLTree.stInv_run _) (by decide)

/-- C4.  For every tree satisfying the invariants, of size `N` (including
`N = 0`), and every integer `k`, `kth_largest k` raises the out-of-range
`ValueError` exactly when `k < 1` or `k > N`, and an in-range call returns a
pair; the query is a pure function of the tree, so a failing call cannot
mutate it. -/
theorem claim_C4_kth_largest_bounds (V : Type) (s : AVLTree V)
    (hs : AVLTree.StInv s) (k : Int) :
    ((∃ e, AVLTree.kth_largest s k = Except.error e) ↔ (k < 1 ∨ k > s.length)) ∧
    (1 ≤ k → k ≤ s.length → ∃ p, AVLTree.kth_largest s k = Except.ok (some p)) := by
  have hnum : (AVLTree.get_num_nodes_subtree s.root : Int) = s.length := by
    rw [AVLTree.get_num_eq hs.1.2.1, hs.2.2]
  constructor
  · constructor
    · rintro ⟨e, he⟩
      by_contra hcon
      push_neg at hcon
      rw [AVLTree.kth_largest, if_neg (by omega : ¬(k > (AVLTree.get_num_nodes_subtree s.root : Int) ∨ k < 1))] at he
      cases he
    · intro hcon
      rw [AVLTree.kth_largest, if_pos (by omega : k > (AVLTree.get_num_nodes_subtree s.root : Int) ∨ k < 1)]
      exact ⟨_, rfl⟩
  · intro h1 h2
    obtain ⟨p, hp, _⟩ := AVLTree.kth_largest_ok hs k h1 h2
    exact ⟨p, hp⟩

/-- C4 witness at the empty tree: every rank, here `5`, is out of range. -/
theorem claim_C4_kth_largest_bounds_witness :
    ((∃ e, AVLTree.kth_largest (run ([] : List (Op Int))) 5 = Except.error e) ↔
      ((5 : Int) < 1 ∨ (5 : Int) > (run ([] : List (Op Int))).length)) ∧
    ((1 : Int) ≤ 5 → (5 : Int) ≤ (run ([] : List (Op Int))).length →
      ∃ p, AVLTree.kth_largest (run ([] : List (Op Int))) 5 = Except.ok (some p)) :=
  claim_C4_kth_largest_bounds Int _ (AVLTree.stInv_run _) 5

/-- C5.  Failed mutations are atomic on every tree satisfying the
invariants: inserting a present key raises the duplicate-item `ValueError`,
deleting an absent key raises the non-existent-item `ValueError`, and in
both cases the caller-visible state after the raising call (`step`) is the
very tree it started from — same structure, caches and live size. -/
theorem claim_C5_failed_mutations_atomic (V : Type) (s : AVLTree V)
    (hs : AVLTree.StInv s) (key : Int) (item : V) :
    (key ∈ AVLTree.keys s.root →
      AVLTree.insert s key item = Except.error "Inserting duplicate item" ∧
      step s (Op.ins key item) = s) ∧
    (key ∉ AVLTree.keys s.root →
      AVLTree.delete s key = Except.error "Deleting non-existent item" ∧
      step s (Op.del key) = s) := by
  constructor
  · intro hk
    have he := AVLTree.insert_err hs.2.1 key item hk
    exact ⟨he, by rw [step, he]⟩
  · intro hk
    have he := AVLTree.delete_err hs.2.1 key hk
    exact ⟨he, by rw [step, he]⟩

/-- C5 witness: duplicate insert of `5` and deletion of absent `7` on the
singleton tree both fail and leave the state unchanged. -/
theorem claim_C5_failed_mutations_atomic_witness :
    (AVLTree.insert (run [Op.ins 5 (0 : Int)]) 5 1 =
        Except.error "Inserting duplicate item" ∧
      step (run [Op.ins 5 (0 : Int)]) (Op.ins 5 1) = run [Op.ins 5 (0 : Int)]) ∧
    (AVLTree.delete (run [Op.ins 5 (0 : Int)]) 7 =
        Except.error "Deleting non-existent item" ∧
      step (run [Op.ins 5 (0 : Int)]) (Op.del 7) = run [Op.ins 5 (0 : Int)]) :=
  ⟨(claim_C5_failed_mutations_atomic Int _ (AVLTree.stInv_run _) 5 1).1 (by decide),
   (claim_C5_failed_mutations_atomic Int _ (AVLTree.stInv_run _) 7 1).2 (by decide)⟩

/-- C6, counterexample.  The claim states that key-indexed assignment with a
key that is already present updates the stored value and succeeds; on the
code it fails instead: assigning to the existing key `5` raises the
duplicate-item `ValueError`. -/
theorem claim_C6_set_counterexample :
    AVLTree.set (run [Op.ins 5 (0 : Int)]) 5 1 =
      Except.error "Inserting duplicate item" := rfl

/-- C6, amended.  The set operation (key-indexed assignment) inserts a new
node when the key is absent, preserving the invariants and uniqueness; when
the key is already present it fails with the duplicate-item condition
instead of updating (callers such as `Game.solve_game` update by deleting
the key and re-assigning it). -/
theorem claim_C6_set_amended (V : Type) (s : AVLTree V)
    (hs : AVLTree.StInv s) (key : Int) (item : V) :
    (key ∉ AVLTree.keys s.root →
      ∃ s2, AVLTree.set s key item = Except.ok s2 ∧
        AVLTree.inorder s2.root = insertKV key item (AVLTree.inorder s.root) ∧
        AVLTree.StInv s2) ∧
    (key ∈ AVLTree.keys s.root →
      AVLTree.set s key item = Except.error "Inserting duplicate item") := by
  constructor
  · intro hk
    obtain ⟨s2, he, hio, hs2, _⟩ := AVLTree.insert_ok hs key item hk
    exact ⟨s2, he, hio, hs2⟩
  · intro hk
    exact AVLTree.insert_err hs.2.1 key item hk

/-- C6 witness: assigning the fresh key `7` inserts it. -/
theorem claim_C6_set_amended_witness :
    ∃ s2, AVLTree.set (run [Op.ins 5 (0 : Int)]) 7 1 = Except.ok s2 ∧
      AVLTree.inorder s2.root =
        insertKV 7 1 (AVLTree.inorder (run [Op.ins 5 (0 : Int)]).root) ∧
      AVLTree.StInv s2 :=
  (claim_C6_set_amended Int _ (AVLTree.stInv_run _) 7 1).1 (by decide)

/-- C7.  `rebalance` implements exactly the AVL case analysis on
`balance = height(right) - height(left)`: within `(-2, 2)` the node is
returned unchanged with no rotation; at `balance ≥ 2` it left-rotates the
node, first right-rotating the right child (reassigning `current.right`)
precisely when that child's left subtree is strictly taller than its right
subtree; at `balance ≤ -2` it acts symmetrically.  The subtree-height
comparisons are stated on actual heights, which the cached fields match
under the height invariant. -/
theorem claim_C7_rebalance_cases (V : Type) (t l r : AVLTreeNode V)
    (k : Int) (v : V) (h c : Nat) (he : t = AVLTreeNode.node l k v r h c)
    (hl : AVLTree.HtOk l) (hr : AVLTree.HtOk r) :
    (-2 < AVLTree.get_balance t → AVLTree.get_balance t < 2 →
      AVLTree.rebalance t = t) ∧
    (2 ≤ AVLTree.get_balance t →
      (AVLTree.ht (AVLTree.leftOf r) > AVLTree.ht (AVLTree.rightOf r) →
        AVLTree.rebalance t =
          AVLTree.left_rotate (AVLTree.setRight t (AVLTree.right_rotate r))) ∧
      (AVLTree.ht (AVLTree.leftOf r) ≤ AVLTree.ht (AVLTree.rightOf r) →
        AVLTree.rebalance t = AVLTree.left_rotate t)) ∧
    (AVLTree.get_balance t ≤ -2 →
      (AVLTree.ht (AVLTree.rightOf l) > AVLTree.ht (AVLTree.leftOf l) →
        AVLTree.rebalance t =
          AVLTree.right_rotate (AVLTree.setLeft t (AVLTree.left_rotate l))) ∧
      (AVLTree.ht (AVLTree.rightOf l) ≤ AVLTree.ht (AVLTree.leftOf l) →
        AVLTree.rebalance t = AVLTree.right_rotate t)) := by
  subst he
  have e1 : AVLTree.get_height (AVLTree.leftOf r) = AVLTree.ht (AVLTree.leftOf r) :=
    AVLTree.get_height_eq (AVLTree.htOk_leftOf hr)
  have e2 : AVLTree.get_height (AVLTree.rightOf r) = AVLTree.ht (AVLTree.rightOf r) :=
    AVLTree.get_height_eq (AVLTree.htOk_rightOf hr)
  have e3 : AVLTree.get_height (AVLTree.rightOf l) = AVLTree.ht (AVLTree.rightOf l) :=
    AVLTree.get_height_eq (AVLTree.htOk_rightOf hl)
  have e4 : AVLTree.get_height (AVLTree.leftOf l) = AVLTree.ht (AVLTree.leftOf l) :=
    AVLTree.get_height_eq (AVLTree.htOk_leftOf hl)
  have hro : AVLTree.rightOf (AVLTreeNode.node l k v r h c) = r := rfl
  have hlo : AVLTree.leftOf (AVLTreeNode.node l k v r h c) = l := rfl
  refine ⟨?_, ?_, ?_⟩
  · intro hb1 hb2
    rw [AVLTree.rebalance,
      if_neg (by omega : ¬ 2 ≤ AVLTree.get_balance (AVLTreeNode.node l k v r h c)),
      if_neg (by omega : ¬ AVLTree.get_balance (AVLTreeNode.node l k v r h c) ≤ -2)]
  · intro hb
    constructor
    · intro hcc
      rw [AVLTree.rebalance, if_pos hb, hro, e1, e2, if_pos hcc]
    · intro hcc
      rw [AVLTree.rebalance, if_pos hb, hro, e1, e2,
        if_neg (by omega : ¬ AVLTree.ht (AVLTree.leftOf r) > AVLTree.ht (AVLTree.rightOf r))]
  · intro hb
    constructor
    · intro hcc
      rw [AVLTree.rebalance,
        if_neg (by omega : ¬ 2 ≤ AVLTree.get_balance (AVLTreeNode.node l k v r h c)),
        if_pos hb, hlo, e3, e4, if_pos hcc]
    · intro hcc
      rw [AVLTree.rebalance,
        if_neg (by omega : ¬ 2 ≤ AVLTree.get_balance (AVLTreeNode.node l k v r h c)),
        if_pos hb, hlo, e3, e4,
        if_neg (by omega : ¬ AVLTree.ht (AVLTree.rightOf l) > AVLTree.ht (AVLTree.leftOf l))]

/-- C7 witness: a balanced single node is returned unchanged, and a
right-heavy chain of height 2 versus 0 takes the single left rotation. -/
theorem claim_C7_rebalance_cases_witness :
    AVLTree.rebalance (AVLTreeNode.node .nil 1 (0 : Int) .nil 1 1) =
      AVLTreeNode.node .nil 1 (0 : Int) .nil 1 1 ∧
    AVLTree.rebalance (AVLTreeNode.node .nil 1 (0 : Int)
        (AVLTreeNode.node .nil 2 0 (AVLTreeNode.node .nil 3 0 .nil 1 1) 2 2) 3 3) =
      AVLTree.left_rotate (AVLTreeNode.node .nil 1 (0 : Int)
        (AVLTreeNode.node .nil 2 0 (AVLTreeNode.node .nil 3 0 .nil 1 1) 2 2) 3 3) :=
  ⟨(claim_C7_rebalance_cases Int _ AVLTreeNode.nil AVLTreeNode.nil 1 0 1 1 rfl
      trivial trivial).1 (by decide) (by decide),
   ((claim_C7_rebalance_cases Int _ AVLTreeNode.nil
        (AVLTreeNode.node .nil 2 0 (AVLTreeNode.node .nil 3 0 .nil 1 1) 2 2)
        1 0 3 3 rfl trivial ⟨trivial, ⟨trivial, trivial, rfl⟩, rfl⟩).2.1
      (by decide)).2 (by decide)⟩

/-- C8.  Round trip: on a tree satisfying the invariants and a fresh key,
inserting the key and then deleting it restores both the live size and the
exact in-order key/value sequence. -/
theorem claim_C8_round_trip (V : Type) (s : AVLTree V) (key : Int) (item : V)
    (hs : AVLTree.StInv s) (hk : key ∉ AVLTree.keys s.root) :
    ∃ s1 s2, AVLTree.insert s key item = Except.ok s1 ∧
      AVLTree.delete s1 key = Except.ok s2 ∧
      AVLTree.inorder s2.root = AVLTree.inorder s.root ∧
      s2.length = s.length := by
  obtain ⟨s1, he1, hio1, hs1, hlen1⟩ := AVLTree.insert_ok hs key item hk
  have hk1 : key ∈ AVLTree.keys s1.root := by
    show key ∈ (AVLTree.inorder s1.root).map Prod.fst
    rw [hio1]
    exact self_mem_insertKV key item _
  obtain ⟨s2, he2, hio2, hs2, hlen2⟩ := AVLTree.delete_ok hs1 key hk1
  refine ⟨s1, s2, he1, he2, ?_, by omega⟩
  rw [hio2, hio1, erase_insertKV key item _ hk]

/-- C8 witness: insert `2` into the tree with keys `1, 3` and delete it
again. -/
theorem claim_C8_round_trip_witness :
    ∃ s1 s2, AVLTree.insert (run [Op.ins 1 0, Op.ins 3 (0 : Int)]) 2 9 =
        Except.ok s1 ∧
      AVLTree.delete s1 2 = Except.ok s2 ∧
      AVLTree.inorder s2.root =
        AVLTree.inorder (run [Op.ins 1 0, Op.ins 3 (0 : Int)]).root ∧
      s2.length = (run [Op.ins 1 0, Op.ins 3 (0 : Int)]).length :=
  claim_C8_round_trip Int _ 2 9 (AVLTree.stInv_run _) (by decide)

namespace RandomGen

/-- Bounds of `(n % k) + 1` for a natural `n` and a positive bound `k`. -/
theorem emod_succ_bounds (n : Nat) (k : Int) (hk : 1 ≤ k) :
    1 ≤ (n : Int) % k + 1 ∧ (n : Int) % k + 1 ≤ k := by
  have h0 : (0 : Int) ≤ (n : Int) % k := Int.emod_nonneg _ (by omega)
  have h1 : (n : Int) % k < k := Int.emod_lt_of_pos _ (by omega)
  omega

/-- Range of a single `randint` call. -/
theorem randint_range (seed : Nat) (k : Int) (hk : 1 ≤ k) :
    1 ≤ (randint seed k).1 ∧ (randint seed k).1 ≤ k :=
  emod_succ_bounds _ k hk

/-- The generator state after one `randint` call is five LCG steps,
independently of the requested bound. -/
theorem randint_state (seed : Nat) (k : Int) :
    (randint seed k).2 = lcgStep^[5] seed := rfl

end RandomGen

/-- C9.  For every seed and every run of `randint` calls, the call at index
`i` with bound `k ≥ 1` returns a value in `[1, k]`, and that value is fully
determined by the seed and the number of prior calls: it equals
`randint` applied to the state reached by `5 * i` LCG steps, regardless of
the bounds used by the earlier calls. -/
theorem claim_C9_randint (seed : Nat) (ks : List Int) (i : Nat) (k : Int)
    (hik : ks[i]? = some k) (hk : 1 ≤ k) :
    (RandomGen.randSeq seed ks)[i]? =
      some ((RandomGen.randint (RandomGen.lcgStep^[5 * i] seed) k).1) ∧
    1 ≤ (RandomGen.randint (RandomGen.lcgStep^[5 * i] seed) k).1 ∧
    (RandomGen.randint (RandomGen.lcgStep^[5 * i] seed) k).1 ≤ k := by
  induction ks generalizing seed i with
  | nil => simp at hik
  | cons k0 rest ih =>
    cases i with
    | zero =>
      rw [List.getElem?_cons_zero] at hik
      injection hik with hik
      subst hik
      refine ⟨?_, RandomGen.randint_range seed k0 hk⟩
      rw [RandomGen.randSeq, List.getElem?_cons_zero]
      simp
    | succ i2 =>
      rw [List.getElem?_cons_succ] at hik
      have ih2 := ih (RandomGen.lcgStep^[5] seed) i2 hik
      rw [← Function.iterate_add_apply] at ih2
      have hmul : 5 * i2 + 5 = 5 * (i2 + 1) := by omega
      rw [hmul] at ih2
      refine ⟨?_, ih2.2.1, ih2.2.2⟩
      rw [RandomGen.randSeq, List.getElem?_cons_succ,
        RandomGen.randint_state seed k0]
      exact ih2.1

/-- C9 witness: with seed `0` and bounds `[100, 7]`, the second call's value
is in `[1, 7]` and is determined by the seed and the call index. -/
theorem claim_C9_randint_witness :
    (RandomGen.randSeq 0 [100, 7])[1]? =
      some ((RandomGen.randint (RandomGen.lcgStep^[5 * 1] 0) 7).1) ∧
    1 ≤ (RandomGen.randint (RandomGen.lcgStep^[5 * 1] 0) 7).1 ∧
    (RandomGen.randint (RandomGen.lcgStep^[5 * 1] 0) 7).1 ≤ 7 :=
  claim_C9_randint 0 [100, 7] 1 7 rfl (by decide)

/-- C10.  The claim states that for `k > 2`, `largest_prime k` returns the
largest prime strictly below `k` (and hence always a prime).  The code's own
docstring promises the same, but the sieve's outer loop stops one short of
`int(math.sqrt(k))`, so the square of the largest relevant prime is never
cleared: `largest_prime 10` evaluates to `9 = 3 * 3`, which is not prime —
the correct answer below `10` would have been `7`. -/
theorem claim_C10_largest_prime_bug :
    Primes.largest_prime 10 = Except.ok (some 9) ∧ ¬ Nat.Prime 9 ∧
    Nat.Prime 7 ∧ ∀ m, 7 < m → m < 10 → ¬ Nat.Prime m := by
  refine ⟨rfl, by decide, by norm_num, ?_⟩
  intro m h1 h2
  interval_cases m <;> decide
